import Mathlib

/-!
Verification of the txscript analysis layer (`script.go`): parsing of raw
script bytes into opcode sequences, re-encoding, script-pattern
classification, canonical-push filtering and signature-operation counting.

Scripts are modelled as lists of natural numbers; a genuine byte buffer is a
list whose entries are all `< 256`, and the theorems that need byte-ness
carry that hypothesis explicitly.

The static opcode table lives outside the file under verification (it is the
external Opcode Table component); the opcode byte values and the per-opcode
length encoding are modelled from the spec, as marked on each definition.
-/

namespace TxScript

/-- Modelled from the spec: opcode byte values of the external Opcode Table
for the opcodes named by `script.go`, using the standard values of this
consensus opcode set.  `OP_0` is the zero push, `OP_DATA_n` is the byte `n`
(fixed push of `n` bytes), `OP_PUSHDATA1/2/4` are the prefixed-length
pushes, `OP_1 .. OP_16` are the small-integer pushes, and the remaining
named values are the operations referenced by the classifier and the
signature-operation accountant. -/
def OP_0 : Nat := 0x00

/-- Fixed 20-byte push opcode (byte value 20). -/
def OP_DATA_20 : Nat := 0x14

/-- Push with 1-byte little-endian length prefix. -/
def OP_PUSHDATA1 : Nat := 0x4c

/-- Push with 2-byte little-endian length prefix. -/
def OP_PUSHDATA2 : Nat := 0x4d

/-- Push with 4-byte little-endian length prefix. -/
def OP_PUSHDATA4 : Nat := 0x4e

/-- Small-integer push 1. -/
def OP_1 : Nat := 0x51

/-- Small-integer push 16; boundary of the push-only range. -/
def OP_16 : Nat := 0x60

/-- The always-fail return marker. -/
def OP_RETURN : Nat := 0x6a

/-- Equality comparison operation. -/
def OP_EQUAL : Nat := 0x87

/-- RIPEMD160-of-SHA256 hash operation. -/
def OP_HASH160 : Nat := 0xa9

/-- Single-key signature check. -/
def OP_CHECKSIG : Nat := 0xac

/-- Single-key signature check, verify variant. -/
def OP_CHECKSIGVERIFY : Nat := 0xad

/-- Multi-key signature check. -/
def OP_CHECKMULTISIG : Nat := 0xae

/-- Multi-key signature check, verify variant. -/
def OP_CHECKMULTISIGVERIFY : Nat := 0xaf

/-- First stake-tagging opcode. -/
def OP_SSTX : Nat := 0xba

/-- Last stake-tagging opcode. -/
def OP_SSTXCHANGE : Nat := 0xbd

/-- Alt-curve single-key signature check. -/
def OP_CHECKSIGALT : Nat := 0xbe

/-- Alt-curve single-key signature check, verify variant. -/
def OP_CHECKSIGALTVERIFY : Nat := 0xbf

/-- Multisig can have at most this many public keys (`script.go` constant). -/
def MaxPubKeysPerMultiSig : Nat := 20

/-- Modelled from the spec: the `length` field of the external Opcode
Table's entry for each byte value.  `1` means the instruction carries no
additional data; `n+1 > 1` for the fixed pushes `OP_DATA_1 .. OP_DATA_75`
(byte values 1..75) means the instruction consumes `n+1` bytes total, the
opcode byte plus `n` data bytes; `-1`, `-2`, `-4` for the three
prefixed-length pushes mean the next 1, 2 or 4 bytes are a little-endian
data length. -/
def opLength (op : Nat) : Int :=
  if 1 ≤ op ∧ op ≤ 75 then (op : Int) + 1
  else if op = OP_PUSHDATA1 then -1
  else if op = OP_PUSHDATA2 then -2
  else if op = OP_PUSHDATA4 then -4
  else 1

/-- A decoded instruction: the opcode byte value together with the push
data attached to it (empty when the opcode carries no data).  This is the
`parsedOpcode` of `script.go`; the opcode's `length` is recovered from the
static table via `opLength`. -/
structure parsedOpcode where
  opvalue : Nat
  data : List Nat
  deriving Repr, DecidableEq

/-- Structured parse-error codes surfaced by the parser.  `script.go`
reports every parse failure as a malformed push. -/
inductive ScriptErrorCode where
  | ErrMalformedPush
  deriving Repr, DecidableEq

/-- Little-endian value of a list of bytes (least significant first). -/
def readLE : List Nat → Nat
  | [] => 0
  | b :: rest => b + 256 * readLE rest

/-- Little-endian encoding of `n` into exactly `k` bytes. -/
def encodeLE : Nat → Nat → List Nat
  | 0, _ => []
  | k + 1, n => n % 256 :: encodeLE k (n / 256)

/-- One iteration of `parseScriptTemplate`'s loop (the `switch` on the
opcode's declared length): given the opcode byte `instr` and the bytes that
follow it, either decode one instruction — returning it together with the
remaining suffix and the total number of bytes the instruction consumed —
or report a malformed push when the declared data cannot be satisfied by
the remaining buffer. -/
def parseStep (instr : Nat) (rest : List Nat) : Option (parsedOpcode × List Nat × Nat) :=
  let len := opLength instr
  if len = 1 then
    -- No additional data; the opcode byte is the whole instruction.
    some (⟨instr, []⟩, rest, 1)
  else if 1 < len then
    -- Fixed-size data push: the instruction must consume exactly `len`
    -- bytes total (opcode byte included).
    if (rest.length + 1 : Int) < len then none
    else
      some (⟨instr, rest.take (len - 1).toNat⟩, rest.drop (len - 1).toNat,
        1 + (len - 1).toNat)
  else
    -- Prefixed-length push: the next `-len` bytes are the little-endian
    -- data length, which must fit in the bytes that follow it.
    let pl := (-len).toNat
    if rest.length < pl then none
    else
      let l := readLE (rest.take pl)
      let after := rest.drop pl
      if after.length < l then none
      else some (⟨instr, after.take l⟩, after.drop l, 1 + pl + l)

/-- The parsing loop of `parseScriptTemplate`, iterated with explicit fuel
(each iteration consumes at least one byte, so fuel equal to the buffer
length runs the loop to completion).  Returns the decoded instructions, an
optional error, and the number of bytes consumed by the instructions
decoded successfully (on failure this is the offset, relative to the given
suffix, at which the failing instruction begins). -/
def parseLoopF : Nat → List Nat → List parsedOpcode × Option ScriptErrorCode × Nat
  | _, [] => ([], none, 0)
  | 0, _ :: _ => ([], none, 0)
  | fuel + 1, instr :: rest =>
    match parseStep instr rest with
    | none => ([], some ScriptErrorCode.ErrMalformedPush, 0)
    | some (pop, rest2, c) =>
      (pop :: (parseLoopF fuel rest2).1, (parseLoopF fuel rest2).2.1,
        c + (parseLoopF fuel rest2).2.2)

/-- The parsing loop run to completion on a whole buffer. -/
def parseLoop (s : List Nat) : List parsedOpcode × Option ScriptErrorCode × Nat :=
  parseLoopF s.length s

/-- `parseScriptTemplate`: decode a whole buffer into the instruction list,
returning the instructions decoded up to the point of failure together with
the error when one occurs. -/
def parseScriptTemplate (script : List Nat) : List parsedOpcode × Option ScriptErrorCode :=
  ((parseLoop script).1, (parseLoop script).2.1)

/-- `parseScript` applies the static opcode table. -/
def parseScript (script : List Nat) : List parsedOpcode × Option ScriptErrorCode :=
  parseScriptTemplate script

/-- Byte offset at which parsing stopped: the total size of the
successfully decoded instructions, which on failure is the offset of the
first byte of the failing instruction. -/
def parseStopOffset (script : List Nat) : Nat :=
  (parseLoop script).2.2

/-- Modelled from the spec: the canonical byte form of one decoded
instruction (the `bytes` method of `parsedOpcode`, part of the external
Opcode Table component).  Re-encoding concatenates the opcode byte, the
length prefix for prefixed-length pushes, and the data; it fails when the
attached data is internally inconsistent with the opcode's declared length
encoding. -/
def popBytes (pop : parsedOpcode) : Option (List Nat) :=
  let len := opLength pop.opvalue
  if len = 1 then
    if pop.data = [] then some [pop.opvalue] else none
  else if 1 < len then
    if (pop.data.length : Int) + 1 = len then some (pop.opvalue :: pop.data) else none
  else
    let pl := (-len).toNat
    if pop.data.length < 2 ^ (8 * pl) then
      some (pop.opvalue :: (encodeLE pl pop.data.length ++ pop.data))
    else none

/-- `unparseScript`: re-encode a decoded sequence by concatenating each
instruction's canonical byte form, failing if any single instruction fails
to re-encode. -/
def unparseScript : List parsedOpcode → Option (List Nat)
  | [] => some []
  | pop :: rest =>
    match popBytes pop, unparseScript rest with
    | some b, some s => some (b ++ s)
    | _, _ => none

/-- `isSmallInt`: whether the opcode is `OP_0` or `OP_1 .. OP_16`. -/
def isSmallInt (op : Nat) : Bool :=
  op = OP_0 || (OP_1 ≤ op && op ≤ OP_16)

/-- `isPushOnly`: every instruction's opcode value is at most `OP_16`. -/
def isPushOnly (pops : List parsedOpcode) : Bool :=
  pops.all (fun pop => pop.opvalue ≤ OP_16)

/-- `IsPushOnlyScript`: parse, and return false when parsing fails. -/
def IsPushOnlyScript (script : List Nat) : Bool :=
  match parseScript script with
  | (_, some _) => false
  | (pops, none) => isPushOnly pops

/-- `isStakeOpcode`: the opcode lies in the stake-tagging range. -/
def isStakeOpcode (op : Nat) : Bool :=
  OP_SSTX ≤ op && op ≤ OP_SSTXCHANGE

/-- Placeholder instruction used only to express guarded positional
indexing (`pops[i]` in the source is always guarded by a bounds check). -/
def defaultPop : parsedOpcode := ⟨0, []⟩

/-- `isScriptHash`: the regular pay-to-script-hash pattern. -/
def isScriptHash (pops : List parsedOpcode) : Bool :=
  pops.length = 3 &&
    (pops.getD 0 defaultPop).opvalue = OP_HASH160 &&
    (pops.getD 1 defaultPop).opvalue = OP_DATA_20 &&
    (pops.getD 2 defaultPop).opvalue = OP_EQUAL

/-- `isStakeScriptHash`: the stake-tagged pay-to-script-hash pattern. -/
def isStakeScriptHash (pops : List parsedOpcode) : Bool :=
  pops.length = 4 &&
    isStakeOpcode (pops.getD 0 defaultPop).opvalue &&
    (pops.getD 1 defaultPop).opvalue = OP_HASH160 &&
    (pops.getD 2 defaultPop).opvalue = OP_DATA_20 &&
    (pops.getD 3 defaultPop).opvalue = OP_EQUAL

/-- `isAnyKindOfScriptHash`: either script-hash pattern. -/
def isAnyKindOfScriptHash (pops : List parsedOpcode) : Bool :=
  isScriptHash pops || isStakeScriptHash pops

/-- `IsPayToScriptHash`: parse, false on failure, then the pattern check. -/
def IsPayToScriptHash (script : List Nat) : Bool :=
  match parseScript script with
  | (_, some _) => false
  | (pops, none) => isScriptHash pops

/-- `canonicalPush`: true when the instruction is not a push at all, or is
a push using the smallest possible encoding for its data. -/
def canonicalPush (pop : parsedOpcode) : Bool :=
  let opcode := pop.opvalue
  let data := pop.data
  let dataLen := pop.data.length
  if OP_16 < opcode then true
  else if opcode < OP_PUSHDATA1 && OP_0 < opcode && (dataLen = 1 && data.headD 0 ≤ 16) then
    false
  else if opcode = OP_PUSHDATA1 && dataLen < OP_PUSHDATA1 then false
  else if opcode = OP_PUSHDATA2 && dataLen ≤ 0xff then false
  else if opcode = OP_PUSHDATA4 && dataLen ≤ 0xffff then false
  else true

/-- `removeOpcodeByData`: keep exactly the instructions that are not a
canonical push containing `data` as a contiguous sub-sequence
(`bytes.Contains` is infix containment). -/
def removeOpcodeByData (pkscript : List parsedOpcode) (data : List Nat) : List parsedOpcode :=
  pkscript.filter (fun pop => !canonicalPush pop || !decide (data <:+: pop.data))

/-- `asSmallInt`: the integer value of a small-integer opcode. -/
def asSmallInt (op : Nat) : Nat :=
  if op = OP_0 then 0 else op - (OP_1 - 1)

/-- The body of `getSigOpCount`'s loop: the running count updated by the
instruction at index `i`, with the guarded look-back at `pops[i-1]` for the
precise multisig case. -/
def sigOpStep (pops : List parsedOpcode) (precise : Bool) (nSigs i : Nat) : Nat :=
  let pop := pops.getD i defaultPop
  if pop.opvalue = OP_CHECKSIG ∨ pop.opvalue = OP_CHECKSIGVERIFY ∨
      pop.opvalue = OP_CHECKSIGALT ∨ pop.opvalue = OP_CHECKSIGALTVERIFY then
    nSigs + 1
  else if pop.opvalue = OP_CHECKMULTISIG ∨ pop.opvalue = OP_CHECKMULTISIGVERIFY then
    if precise ∧ 0 < i ∧ OP_1 ≤ (pops.getD (i - 1) defaultPop).opvalue ∧
        (pops.getD (i - 1) defaultPop).opvalue ≤ OP_16 then
      nSigs + asSmallInt (pops.getD (i - 1) defaultPop).opvalue
    else
      nSigs + MaxPubKeysPerMultiSig
  else
    nSigs

/-- `getSigOpCount`: one pass over the sequence accumulating the signature
operation count. -/
def getSigOpCount (pops : List parsedOpcode) (precise : Bool) : Nat :=
  (List.range pops.length).foldl (sigOpStep pops precise) 0

/-- `GetSigOpCount`: non-precise count over the parsed-up-to-error list. -/
def GetSigOpCount (script : List Nat) : Nat :=
  getSigOpCount (parseScript script).1 false

/-- `GetPreciseSigOpCount`: the pay-to-script-hash-aware precise count,
with the source's asymmetric error handling: the public key script and the
redeem script use the partial parse even on error, while a signature-script
parse failure yields 0 outright. -/
def GetPreciseSigOpCount (scriptSig scriptPubKey : List Nat) (bip16 : Bool) : Nat :=
  let pops := (parseScript scriptPubKey).1
  if !(bip16 && isScriptHash pops) then
    getSigOpCount pops true
  else
    match parseScript scriptSig with
    | (_, some _) => 0
    | (sigPops, none) =>
      if !isPushOnly sigPops || sigPops.length = 0 then 0
      else
        let shScript := (sigPops.getLastD defaultPop).data
        if shScript.length = 0 then 0
        else getSigOpCount (parseScript shScript).1 true

/-- `IsUnspendable`: zero-value outputs, unparseable scripts, and scripts
whose first instruction is the return marker are unspendable. -/
def IsUnspendable (amount : Int) (pkScript : List Nat) : Bool :=
  if amount = 0 then true
  else
    match parseScript pkScript with
    | (_, some _) => true
    | (pops, none) => 0 < pops.length && (pops.getD 0 defaultPop).opvalue = OP_RETURN

/-- The failure condition of the claims, stated on the remaining buffer:
its first byte is an instruction whose push data cannot be satisfied by
the remaining bytes — a fixed-length push with fewer than `length` bytes
remaining from the opcode byte, or a prefixed-length push whose length
prefix is truncated or whose decoded length exceeds the bytes remaining
after the prefix. -/
def badPushHead (s : List Nat) : Bool :=
  match s with
  | [] => false
  | instr :: rest =>
    let len := opLength instr
    if 1 < len then
      decide ((rest.length + 1 : Int) < len)
    else if len < 0 then
      let pl := (-len).toNat
      decide (rest.length < pl) || decide ((rest.drop pl).length < readLE (rest.take pl))
    else false

/-- The per-index signature-operation contribution as the claim states it:
index `i` contributes 1 for a single-key signature check, the value of the
immediately preceding small-integer instruction (when `precise` is set and
that instruction exists and is `OP_1 .. OP_16`) or else
`MaxPubKeysPerMultiSig` for a multi-key check, and 0 otherwise. -/
def sigOpContribSpec (pops : List parsedOpcode) (precise : Bool) (i : Nat) : Nat :=
  match pops[i]? with
  | none => 0
  | some pop =>
    if pop.opvalue ∈ [OP_CHECKSIG, OP_CHECKSIGVERIFY, OP_CHECKSIGALT, OP_CHECKSIGALTVERIFY] then
      1
    else if pop.opvalue ∈ [OP_CHECKMULTISIG, OP_CHECKMULTISIGVERIFY] then
      match precise, i with
      | true, j + 1 =>
        match pops[j]? with
        | some prev =>
          if OP_1 ≤ prev.opvalue ∧ prev.opvalue ≤ OP_16 then asSmallInt prev.opvalue
          else MaxPubKeysPerMultiSig
        | none => MaxPubKeysPerMultiSig
      | _, _ => MaxPubKeysPerMultiSig
    else 0

/-! ## Facts about the opcode length table -/

theorem opLength_gt_one (op : Nat) (h : 1 < opLength op) :
    1 ≤ op ∧ op ≤ 75 ∧ opLength op = (op : Int) + 1 := by
  unfold opLength at h ⊢
  unfold OP_PUSHDATA1 OP_PUSHDATA2 OP_PUSHDATA4 at h ⊢
  split_ifs at h ⊢ <;> omega

theorem opLength_neg (op : Nat) (h1 : opLength op ≠ 1) (h2 : ¬ 1 < opLength op) :
    opLength op < 0 ∧
      ((-opLength op).toNat = 1 ∨ (-opLength op).toNat = 2 ∨ (-opLength op).toNat = 4) := by
  unfold opLength at h1 h2 ⊢
  unfold OP_PUSHDATA1 OP_PUSHDATA2 OP_PUSHDATA4 at h1 h2 ⊢
  split_ifs at h1 h2 ⊢ <;> omega

/-! ## Little-endian length prefixes -/

theorem readLE_lt (bs : List Nat) (hb : ∀ x ∈ bs, x < 256) :
    readLE bs < 2 ^ (8 * bs.length) := by
  induction bs with
  | nil => simp [readLE]
  | cons b rest ih =>
    have hb' : b < 256 := hb b (List.mem_cons_self b rest)
    have ih' : readLE rest < 2 ^ (8 * rest.length) :=
      ih (fun x hx => hb x (List.mem_cons_of_mem b hx))
    have hpow : 2 ^ (8 * (rest.length + 1)) = 2 ^ (8 * rest.length) * 256 := by
      rw [show 8 * (rest.length + 1) = 8 * rest.length + 8 by ring, pow_add]
      norm_num
    simp only [readLE, List.length_cons, hpow]
    omega

theorem encodeLE_readLE (bs : List Nat) (hb : ∀ x ∈ bs, x < 256) :
    encodeLE bs.length (readLE bs) = bs := by
  induction bs with
  | nil => rfl
  | cons b rest ih =>
    have hb' : b < 256 := hb b (List.mem_cons_self b rest)
    have h1 : (b + 256 * readLE rest) % 256 = b := by omega
    have h2 : (b + 256 * readLE rest) / 256 = readLE rest := by omega
    simp only [readLE, List.length_cons, encodeLE, h1, h2]
    exact congrArg (b :: ·) (ih (fun x hx => hb x (List.mem_cons_of_mem b hx)))

/-! ## Single-step characterization -/

theorem parseStep_none_iff (instr : Nat) (rest : List Nat) :
    parseStep instr rest = none ↔ badPushHead (instr :: rest) = true := by
  unfold parseStep badPushHead
  by_cases h1 : opLength instr = 1
  · simp [h1]
  · by_cases h2 : 1 < opLength instr
    · have h1' : ¬ opLength instr < 0 := by omega
      simp only [h1, h2, h1', if_neg, if_pos, if_false]
      split_ifs <;> simp_all
    · have h3 := opLength_neg instr h1 h2
      simp only [h1, h2, h3.1, if_neg, if_pos, if_false, ite_false, ite_true,
        not_false_eq_true, Bool.or_eq_true, decide_eq_true_eq]
      have h2' : ¬ 1 < opLength instr := h2
      split_ifs <;> simp_all

theorem parseStep_some_spec (instr : Nat) (rest : List Nat) (pop : parsedOpcode)
    (rest2 : List Nat) (c : Nat) (h : parseStep instr rest = some (pop, rest2, c)) :
    ∃ cr : List Nat, rest = cr ++ rest2 ∧ c = cr.length + 1 ∧
      ((∀ x ∈ instr :: rest, x < 256) → popBytes pop = some (instr :: cr)) ∧
      (∀ w : List Nat, parseStep instr (cr ++ w) = some (pop, w, c)) := by
  unfold parseStep at h
  by_cases h1 : opLength instr = 1
  · simp only [h1, if_pos, Option.some.injEq, Prod.mk.injEq] at h
    obtain ⟨hpop, hrest2, hc⟩ := h
    refine ⟨[], by simpa using hrest2, by simp only [List.length_nil]; omega, ?_, ?_⟩
    · intro _
      unfold popBytes
      simp [← hpop, h1]
    · intro w
      unfold parseStep
      simp [h1, ← hpop, hc]
  · by_cases h2 : 1 < opLength instr
    · obtain ⟨hop1, hop75, hlen⟩ := opLength_gt_one instr h2
      simp only [h1, h2, if_neg, if_pos, if_false, ite_true] at h
      split_ifs at h with hfail
      obtain ⟨hpop, hrest2, hc⟩ := by
        simpa only [Option.some.injEq, Prod.mk.injEq] using h
      set n : Nat := (opLength instr - 1).toNat with hn
      have hnval : (n : Int) = opLength instr - 1 := by omega
      have hnle : n ≤ rest.length := by omega
      have hlentake : (rest.take n).length = n := by
        simp [List.length_take]; omega
      refine ⟨rest.take n, ?_, ?_, ?_, ?_⟩
      · rw [← hrest2]; exact (List.take_append_drop n rest).symm
      · omega
      · intro _
        unfold popBytes
        simp only [← hpop, h1, h2, if_neg, if_pos, if_false, ite_true, hlentake]
        rw [if_pos (by omega)]
      · intro w
        unfold parseStep
        have hlen2 : ¬ (((rest.take n ++ w).length + 1 : Int) < opLength instr) := by
          simp only [List.length_append, hlentake]; push_cast; omega
        have htk : (rest.take n ++ w).take n = rest.take n := by
          rw [List.take_append_of_le_length (by omega), List.take_take]
          simp
        have hdr : (rest.take n ++ w).drop n = w := by
          rw [List.drop_append_of_le_length (by omega),
            List.drop_eq_nil_of_le (by omega)]
          simp
        simp only [h1, h2, if_neg, if_pos, if_false, ite_true]
        rw [if_neg hlen2, show (opLength instr - 1).toNat = n from rfl, htk, hdr,
          ← hpop, hc]
    · obtain ⟨hneg, hpl⟩ := opLength_neg instr h1 h2
      simp only [h1, h2, if_neg, if_false, ite_true, ite_false] at h
      set pl : Nat := (-opLength instr).toNat with hpldef
      have hplpos : 0 < pl := by omega
      split_ifs at h with hfail1 hfail2
      obtain ⟨hpop, hrest2, hc⟩ := by
        simpa only [Option.some.injEq, Prod.mk.injEq] using h
      have hple : pl ≤ rest.length := by omega
      set l : Nat := readLE (rest.take pl) with hldef
      have hlle : l ≤ rest.length - pl := by
        have h0 := hfail2
        rw [List.length_drop] at h0
        omega
      have hlentake : (rest.take pl).length = pl := by
        simp [List.length_take]; omega
      have hlentake2 : ((rest.drop pl).take l).length = l := by
        simp [List.length_take, List.length_drop]; omega
      refine ⟨rest.take pl ++ (rest.drop pl).take l, ?_, ?_, ?_, ?_⟩
      · rw [← hrest2, List.append_assoc, List.take_append_drop, List.take_append_drop]
      · simp only [List.length_append, hlentake, hlentake2]; omega
      · intro hb
        have hbtake : ∀ x ∈ rest.take pl, x < 256 := fun x hx =>
          hb x (List.mem_cons_of_mem instr (List.mem_of_mem_take hx))
        have hllt : l < 2 ^ (8 * pl) := by
          have h0 := readLE_lt (rest.take pl) hbtake
          rw [hlentake] at h0
          rw [hldef]
          exact h0
        have henc : encodeLE pl l = rest.take pl := by
          have h0 := encodeLE_readLE (rest.take pl) hbtake
          rw [hlentake] at h0
          rw [hldef]
          exact h0
        unfold popBytes
        simp only [← hpop, h1, h2, if_neg, if_false, ite_true, ite_false, hlentake2]
        rw [← hpldef, if_pos hllt, henc]
      · intro w
        unfold parseStep
        have hlen2 : ¬ ((rest.take pl ++ (rest.drop pl).take l) ++ w).length < pl := by
          simp only [List.length_append, hlentake, hlentake2]; omega
        have htk : ((rest.take pl ++ (rest.drop pl).take l) ++ w).take pl = rest.take pl := by
          rw [List.append_assoc, List.take_append_of_le_length (by omega), List.take_take]
          simp
        have hdr : ((rest.take pl ++ (rest.drop pl).take l) ++ w).drop pl =
            (rest.drop pl).take l ++ w := by
          rw [List.append_assoc, List.drop_append_of_le_length (by omega),
            List.drop_eq_nil_of_le (by omega)]
          simp
        have htk2 : ((rest.drop pl).take l ++ w).take l = (rest.drop pl).take l := by
          rw [List.take_append_of_le_length (by omega), List.take_take]
          simp
        have hdr2 : ((rest.drop pl).take l ++ w).drop l = w := by
          rw [List.drop_append_of_le_length (by omega),
            List.drop_eq_nil_of_le (by omega)]
          simp
        simp only [h1, h2, if_neg, if_false, ite_true, ite_false, ← hpldef]
        rw [if_neg hlen2, htk, ← hldef, hdr,
          if_neg (by rw [List.length_append, hlentake2]; omega :
            ¬ ((rest.drop pl).take l ++ w).length < l),
          htk2, hdr2, ← hpop, hc]

/-! ## Loop lemmas -/

theorem parseLoopF_irrel : ∀ (f1 : Nat) (s : List Nat) (f2 : Nat),
    s.length ≤ f1 → s.length ≤ f2 → parseLoopF f1 s = parseLoopF f2 s := by
  intro f1
  induction f1 with
  | zero =>
    intro s f2 h1 _
    obtain rfl : s = [] := List.length_eq_zero.mp (Nat.le_zero.mp h1)
    cases f2 <;> rfl
  | succ f ih =>
    intro s f2 h1 h2
    cases s with
    | nil => cases f2 <;> rfl
    | cons instr rest =>
      cases f2 with
      | zero => simp at h2
      | succ f2' =>
        simp only [List.length_cons] at h1 h2
        simp only [parseLoopF]
        cases hs : parseStep instr rest with
        | none => rfl
        | some v =>
          obtain ⟨pop, rest2, c⟩ := v
          obtain ⟨cr, hsplit, -, -, -⟩ := parseStep_some_spec instr rest pop rest2 c hs
          have hlen : rest2.length ≤ rest.length := by
            rw [hsplit]; simp
          dsimp only
          rw [ih rest2 f2' (by omega) (by omega)]

theorem parseLoop_cons (instr : Nat) (rest : List Nat) :
    parseLoop (instr :: rest) =
      match parseStep instr rest with
      | none => ([], some ScriptErrorCode.ErrMalformedPush, 0)
      | some (pop, rest2, c) =>
        (pop :: (parseLoop rest2).1, (parseLoop rest2).2.1, c + (parseLoop rest2).2.2) := by
  show parseLoopF (rest.length + 1) (instr :: rest) = _
  simp only [parseLoopF]
  cases hs : parseStep instr rest with
  | none => rfl
  | some v =>
    obtain ⟨pop, rest2, c⟩ := v
    obtain ⟨cr, hsplit, -, -, -⟩ := parseStep_some_spec instr rest pop rest2 c hs
    have : parseLoopF rest.length rest2 = parseLoopF rest2.length rest2 :=
      parseLoopF_irrel rest.length rest2 rest2.length (by rw [hsplit]; simp) le_rfl
    dsimp only
    rw [this]
    rfl

theorem badPushHead_parseLoop (s : List Nat) (h : badPushHead s = true) :
    parseLoop s = ([], some ScriptErrorCode.ErrMalformedPush, 0) := by
  cases s with
  | nil => simp [badPushHead] at h
  | cons instr rest =>
    rw [parseLoop_cons, (parseStep_none_iff instr rest).mpr h]

theorem parseLoop_shape : ∀ (N : Nat) (s : List Nat), s.length ≤ N →
    ((parseLoop s).2.1 = none → (parseLoop s).2.2 = s.length) ∧
    ((parseLoop s).2.1 ≠ none →
      (parseLoop s).2.1 = some ScriptErrorCode.ErrMalformedPush ∧
      (parseLoop s).2.2 < s.length ∧
      parseLoop (s.take (parseLoop s).2.2) = ((parseLoop s).1, none, (parseLoop s).2.2) ∧
      badPushHead (s.drop (parseLoop s).2.2) = true) := by
  intro N
  induction N with
  | zero =>
    intro s hlen
    obtain rfl : s = [] := List.length_eq_zero.mp (Nat.le_zero.mp hlen)
    exact ⟨fun _ => rfl, fun h => absurd rfl h⟩
  | succ N ih =>
    intro s hlen
    cases s with
    | nil => exact ⟨fun _ => rfl, fun h => absurd rfl h⟩
    | cons instr rest =>
      simp only [List.length_cons] at hlen
      rw [parseLoop_cons]
      cases hs : parseStep instr rest with
      | none =>
        refine ⟨fun h => by simp at h, fun _ => ⟨rfl, by simp, rfl, ?_⟩⟩
        exact (parseStep_none_iff instr rest).mp hs
      | some v =>
        obtain ⟨pop, rest2, c⟩ := v
        dsimp only
        obtain ⟨cr, hsplit, hc, -, hext⟩ := parseStep_some_spec instr rest pop rest2 c hs
        have hlen2 : rest2.length ≤ rest.length := by rw [hsplit]; simp
        have hIH := ih rest2 (by omega)
        constructor
        · intro h
          have hstop := hIH.1 h
          simp only [hstop, List.length_cons, hsplit, List.length_append]
          omega
        · intro h
          obtain ⟨herr, hlt, htake, hbad⟩ := hIH.2 h
          refine ⟨herr, ?_, ?_, ?_⟩
          · simp only [List.length_cons, hsplit, List.length_append]
            omega
          · have htksplit : (instr :: rest).take (c + (parseLoop rest2).2.2) =
                instr :: (cr ++ rest2.take (parseLoop rest2).2.2) := by
              rw [hsplit, show c + (parseLoop rest2).2.2 =
                  (cr.length + (parseLoop rest2).2.2) + 1 by omega]
              rw [List.take_succ_cons, List.take_add, List.take_left, List.drop_left]
            rw [htksplit, parseLoop_cons, hext (rest2.take (parseLoop rest2).2.2)]
            dsimp only
            rw [htake]
          · have hdrsplit : (instr :: rest).drop (c + (parseLoop rest2).2.2) =
                rest2.drop (parseLoop rest2).2.2 := by
              rw [hsplit, show c + (parseLoop rest2).2.2 =
                  (cr.length + (parseLoop rest2).2.2) + 1 by omega]
              rw [List.drop_succ_cons, ← List.drop_drop, List.drop_left]
            rw [hdrsplit]
            exact hbad

theorem parseLoop_unparse : ∀ (N : Nat) (s : List Nat), s.length ≤ N →
    (∀ x ∈ s, x < 256) → (parseLoop s).2.1 = none →
    unparseScript (parseLoop s).1 = some s := by
  intro N
  induction N with
  | zero =>
    intro s hlen _ _
    obtain rfl : s = [] := List.length_eq_zero.mp (Nat.le_zero.mp hlen)
    rfl
  | succ N ih =>
    intro s hlen hb herr
    cases s with
    | nil => rfl
    | cons instr rest =>
      simp only [List.length_cons] at hlen
      rw [parseLoop_cons] at herr ⊢
      cases hs : parseStep instr rest with
      | none => rw [hs] at herr; simp at herr
      | some v =>
        obtain ⟨pop, rest2, c⟩ := v
        rw [hs] at herr
        dsimp only at herr ⊢
        obtain ⟨cr, hsplit, hc, hpb, -⟩ := parseStep_some_spec instr rest pop rest2 c hs
        have hlen2 : rest2.length ≤ rest.length := by rw [hsplit]; simp
        have hb2 : ∀ x ∈ rest2, x < 256 := by
          intro x hx
          exact hb x (List.mem_cons_of_mem instr (hsplit ▸ List.mem_append_right cr hx))
        have hrec : unparseScript (parseLoop rest2).1 = some rest2 :=
          ih rest2 (by omega) hb2 herr
        simp only [unparseScript, hpb hb, hrec]
        rw [hsplit]
        rfl

theorem parseLoop_append : ∀ (N : Nat) (t : List Nat), t.length ≤ N → ∀ (u : List Nat),
    (parseLoop t).2.1 = none →
    parseLoop (t ++ u) = ((parseLoop t).1 ++ (parseLoop u).1, (parseLoop u).2.1,
      t.length + (parseLoop u).2.2) := by
  intro N
  induction N with
  | zero =>
    intro t hlen u _
    obtain rfl : t = [] := List.length_eq_zero.mp (Nat.le_zero.mp hlen)
    rw [show parseLoop [] = ([], none, 0) from rfl]
    simp
  | succ N ih =>
    intro t hlen u herr
    cases t with
    | nil =>
      rw [show parseLoop [] = ([], none, 0) from rfl]
      simp
    | cons instr rest =>
      simp only [List.length_cons] at hlen
      rw [parseLoop_cons] at herr
      cases hs : parseStep instr rest with
      | none => rw [hs] at herr; simp at herr
      | some v =>
        obtain ⟨pop, rest2, c⟩ := v
        rw [hs] at herr
        dsimp only at herr
        obtain ⟨cr, hsplit, hc, -, hext⟩ := parseStep_some_spec instr rest pop rest2 c hs
        have hlen2 : rest2.length ≤ rest.length := by rw [hsplit]; simp
        have harg : (instr :: rest) ++ u = instr :: (cr ++ (rest2 ++ u)) := by
          rw [List.cons_append, hsplit, List.append_assoc]
        rw [harg, parseLoop_cons, hext (rest2 ++ u)]
        dsimp only
        rw [ih rest2 (by omega) u herr, parseLoop_cons, hs]
        dsimp only
        have hr : rest.length = cr.length + rest2.length := by
          rw [hsplit, List.length_append]
        simp only [List.cons_append, List.length_cons, Prod.mk.injEq, true_and]
        omega

/-! ## Claim theorems -/

/-- C1: for every byte buffer `b`, parsing either succeeds and re-encoding
the decoded sequence via `unparseScript` reproduces `b` exactly, or fails
and re-encoding the partial decoded sequence yields the strict prefix of
`b` that ends exactly at the byte offset where the failing instruction
begins (`parseStopOffset`). -/
theorem parse_unparse_roundtrip (b : List Nat) (hb : ∀ x ∈ b, x < 256) :
    ((parseScriptTemplate b).2 = none →
      unparseScript (parseScriptTemplate b).1 = some b) ∧
    ((parseScriptTemplate b).2 ≠ none →
      parseStopOffset b < b.length ∧
      unparseScript (parseScriptTemplate b).1 = some (b.take (parseStopOffset b))) := by
  simp only [parseScriptTemplate, parseStopOffset]
  constructor
  · intro h
    exact parseLoop_unparse b.length b le_rfl hb h
  · intro h
    obtain ⟨-, hlt, htake, -⟩ := (parseLoop_shape b.length b le_rfl).2 h
    refine ⟨hlt, ?_⟩
    have hb2 : ∀ x ∈ b.take (parseLoop b).2.2, x < 256 := fun x hx =>
      hb x (List.mem_of_mem_take hx)
    have h2 := parseLoop_unparse (b.take (parseLoop b).2.2).length
      (b.take (parseLoop b).2.2) le_rfl hb2 (by rw [htake])
    rw [htake] at h2
    exact h2

/-- Witness for C1 at the concrete buffer `[OP_0, OP_PUSHDATA1]`: the
push-data opcode's length prefix is truncated, the partial sequence is the
single `OP_0` instruction, and it re-encodes to the strict prefix `[0]`. -/
theorem parse_unparse_roundtrip_witness :
    parseStopOffset [0, 76] < 2 ∧
      unparseScript (parseScriptTemplate [0, 76]).1 = some [0] := by
  have h := (parse_unparse_roundtrip [0, 76] (by decide)).2 (by decide)
  exact ⟨h.1, h.2⟩

/-- C2: parsing fails (always with the malformed-push error) exactly when
decoding reaches an instruction whose push data cannot be satisfied by the
remaining buffer (`badPushHead`), and in every such case the partial
sequence contains exactly the instructions decoded before the failing one
(it equals the full parse of the prefix that precedes the failing
instruction, and that prefix parses cleanly). -/
theorem parse_malformed_characterization (b : List Nat) :
    ((parseScriptTemplate b).2 ≠ none ↔
      ∃ k, k < b.length ∧ (parseScriptTemplate (b.take k)).2 = none ∧
        badPushHead (b.drop k) = true) ∧
    (∀ e, (parseScriptTemplate b).2 = some e →
      e = ScriptErrorCode.ErrMalformedPush ∧
      (parseScriptTemplate (b.take (parseStopOffset b))).2 = none ∧
      (parseScriptTemplate b).1 = (parseScriptTemplate (b.take (parseStopOffset b))).1 ∧
      badPushHead (b.drop (parseStopOffset b)) = true) := by
  simp only [parseScriptTemplate, parseStopOffset]
  have hshape := parseLoop_shape b.length b le_rfl
  constructor
  · constructor
    · intro h
      obtain ⟨-, hlt, htake, hbad⟩ := hshape.2 h
      exact ⟨(parseLoop b).2.2, hlt, by rw [htake], hbad⟩
    · rintro ⟨k, -, hclean, hbad⟩
      have happ := parseLoop_append (b.take k).length (b.take k) le_rfl (b.drop k) hclean
      rw [List.take_append_drop, badPushHead_parseLoop (b.drop k) hbad] at happ
      rw [happ]
      simp
  · intro e he
    have hne : (parseLoop b).2.1 ≠ none := by rw [he]; simp
    obtain ⟨herr, -, htake, hbad⟩ := hshape.2 hne
    rw [he] at herr
    refine ⟨trivial, by rw [htake], by rw [htake], hbad⟩

/-- Witness for C2 at the concrete buffer `[OP_HASH160, OP_DATA_20]`: the
20-byte push is truncated, so parsing fails at offset 1 with the partial
sequence equal to the clean parse of the one-byte prefix, and the suffix
`[20]` satisfies the failure condition. -/
theorem parse_malformed_characterization_witness :
    (parseScriptTemplate [169, 20]).1 = (parseScriptTemplate [169]).1 ∧
      (parseScriptTemplate [169]).2 = none ∧ badPushHead [20] = true := by
  have h := (parse_malformed_characterization [169, 20]).2
    ScriptErrorCode.ErrMalformedPush (by decide)
  exact ⟨h.2.2.1, h.2.1, h.2.2.2⟩

/-- C10: the empty buffer parses successfully to the empty decoded
sequence, and the push-only predicate holds vacuously on it, so
`IsPushOnlyScript` returns true. -/
theorem empty_script_push_only :
    parseScriptTemplate [] = ([], none) ∧ IsPushOnlyScript [] = true :=
  ⟨rfl, rfl⟩

/-! ## Signature-operation counting -/

theorem sigOpStep_add (pops : List parsedOpcode) (precise : Bool) (a i : Nat) :
    sigOpStep pops precise a i = a + sigOpStep pops precise 0 i := by
  unfold sigOpStep
  dsimp only
  split_ifs <;> omega

theorem foldl_sigOpStep (pops : List parsedOpcode) (precise : Bool) :
    ∀ (l : List Nat) (a : Nat),
      l.foldl (sigOpStep pops precise) a = a + (l.map (sigOpStep pops precise 0)).sum := by
  intro l
  induction l with
  | nil => simp
  | cons x xs ih =>
    intro a
    simp only [List.foldl_cons, List.map_cons, List.sum_cons]
    rw [ih (sigOpStep pops precise a x), sigOpStep_add]
    omega

theorem getSigOpCount_sum (pops : List parsedOpcode) (precise : Bool) :
    getSigOpCount pops precise =
      ((List.range pops.length).map (sigOpStep pops precise 0)).sum := by
  unfold getSigOpCount
  rw [foldl_sigOpStep]
  omega

theorem sigOpStep_zero_eq (pops : List parsedOpcode) (precise : Bool) (i : Nat)
    (hi : i < pops.length) :
    sigOpStep pops precise 0 i = sigOpContribSpec pops precise i := by
  have hgi : pops[i]? = some (pops.getD i defaultPop) := by
    simp [List.getD_eq_getElem?_getD, List.getElem?_eq_getElem hi]
  unfold sigOpStep sigOpContribSpec
  rw [hgi]
  dsimp only
  simp only [List.mem_cons, List.not_mem_nil, or_false]
  cases precise with
  | false =>
    cases i with
    | zero =>
      dsimp only
      split_ifs with h1 h2 h3 <;> first | rfl | exact absurd h3.1 (by simp)
    | succ j =>
      dsimp only
      split_ifs with h1 h2 h3 <;> first | rfl | exact absurd h3.1 (by simp)
  | true =>
    cases i with
    | zero =>
      dsimp only
      split_ifs with h1 h2 h3 <;> first | rfl | exact absurd h3.2.1 (by omega)
    | succ j =>
      have hj : j < pops.length := by omega
      have hgj : pops[j]? = some (pops.getD j defaultPop) := by
        simp [List.getD_eq_getElem?_getD, List.getElem?_eq_getElem hj]
      dsimp only
      rw [hgj]
      dsimp only
      rw [show j + 1 - 1 = j from rfl]
      by_cases h1 : (pops.getD (j + 1) defaultPop).opvalue = OP_CHECKSIG ∨
          (pops.getD (j + 1) defaultPop).opvalue = OP_CHECKSIGVERIFY ∨
          (pops.getD (j + 1) defaultPop).opvalue = OP_CHECKSIGALT ∨
          (pops.getD (j + 1) defaultPop).opvalue = OP_CHECKSIGALTVERIFY
      · rw [if_pos h1, if_pos h1]
      · rw [if_neg h1, if_neg h1]
        by_cases h2 : (pops.getD (j + 1) defaultPop).opvalue = OP_CHECKMULTISIG ∨
            (pops.getD (j + 1) defaultPop).opvalue = OP_CHECKMULTISIGVERIFY
        · rw [if_pos h2, if_pos h2]
          by_cases hr : OP_1 ≤ (pops.getD j defaultPop).opvalue ∧
              (pops.getD j defaultPop).opvalue ≤ OP_16
          · have hcc : (true = true) ∧ 0 < j + 1 ∧
                OP_1 ≤ (pops.getD j defaultPop).opvalue ∧
                (pops.getD j defaultPop).opvalue ≤ OP_16 :=
              ⟨rfl, Nat.succ_pos j, hr.1, hr.2⟩
            rw [if_pos hcc, if_pos hr]
            omega
          · have hcc : ¬((true = true) ∧ 0 < j + 1 ∧
                OP_1 ≤ (pops.getD j defaultPop).opvalue ∧
                (pops.getD j defaultPop).opvalue ≤ OP_16) :=
              fun hx => hr ⟨hx.2.2.1, hx.2.2.2⟩
            rw [if_neg hcc, if_neg hr]
            omega
        · rw [if_neg h2, if_neg h2]

theorem getSigOpCount_eq_contrib_sum (pops : List parsedOpcode) (precise : Bool) :
    getSigOpCount pops precise =
      ((List.range pops.length).map (sigOpContribSpec pops precise)).sum := by
  rw [getSigOpCount_sum]
  refine congrArg List.sum (List.map_congr_left ?_)
  intro i hi
  exact sigOpStep_zero_eq pops precise i (List.mem_range.mp hi)

theorem sigOpContribSpec_le (pops : List parsedOpcode) (i : Nat) :
    sigOpContribSpec pops true i ≤ sigOpContribSpec pops false i := by
  unfold sigOpContribSpec
  cases hgi : pops[i]? with
  | none => exact le_rfl
  | some pop =>
    dsimp only
    by_cases h1 : pop.opvalue ∈ [OP_CHECKSIG, OP_CHECKSIGVERIFY, OP_CHECKSIGALT,
        OP_CHECKSIGALTVERIFY]
    · rw [if_pos h1, if_pos h1]
    · rw [if_neg h1, if_neg h1]
      by_cases h2 : pop.opvalue ∈ [OP_CHECKMULTISIG, OP_CHECKMULTISIGVERIFY]
      · rw [if_pos h2, if_pos h2]
        cases i with
        | zero => exact le_rfl
        | succ j =>
          dsimp only
          cases pops[j]? with
          | none => exact le_rfl
          | some prev =>
            dsimp only
            by_cases h3 : OP_1 ≤ prev.opvalue ∧ prev.opvalue ≤ OP_16
            · rw [if_pos h3]
              simp only [asSmallInt, MaxPubKeysPerMultiSig, OP_0, OP_1, OP_16] at h3 ⊢
              split_ifs <;> omega
            · rw [if_neg h3]
      · rw [if_neg h2, if_neg h2]

/-- C3: for every decoded sequence and every `precise` flag, the single
pass of `getSigOpCount` computes exactly the sum, over all positions, of
the per-instruction contribution stated by the spec
(`sigOpContribSpec`): 1 for each single-key signature-check opcode, the
preceding small integer or `MaxPubKeysPerMultiSig` = 20 for each multi-key
opcode, and 0 otherwise.  The function is total: it never fails. -/
theorem getSigOpCount_spec (pops : List parsedOpcode) (precise : Bool) :
    getSigOpCount pops precise =
      ((List.range pops.length).map (sigOpContribSpec pops precise)).sum :=
  getSigOpCount_eq_contrib_sum pops precise

/-- C9: for every decoded sequence containing at least one multi-key
signature-check instruction not immediately preceded by a small-integer
push, the non-precise count is at least the precise count. -/
theorem sigop_precise_le_max (pops : List parsedOpcode)
    (h : ∃ i, i < pops.length ∧
      ((pops.getD i defaultPop).opvalue = OP_CHECKMULTISIG ∨
        (pops.getD i defaultPop).opvalue = OP_CHECKMULTISIGVERIFY) ∧
      ¬(0 < i ∧ OP_1 ≤ (pops.getD (i - 1) defaultPop).opvalue ∧
          (pops.getD (i - 1) defaultPop).opvalue ≤ OP_16)) :
    getSigOpCount pops false ≥ getSigOpCount pops true := by
  rw [getSigOpCount_eq_contrib_sum pops false, getSigOpCount_eq_contrib_sum pops true]
  exact List.sum_le_sum (fun i _ => sigOpContribSpec_le pops i)

/-- Witness for C9 at the one-instruction sequence holding a bare
multi-key signature check: both modes count the maximum of 20. -/
theorem sigop_precise_le_max_witness :
    getSigOpCount [⟨174, []⟩] false ≥ getSigOpCount [⟨174, []⟩] true :=
  sigop_precise_le_max [⟨174, []⟩] ⟨0, by decide, Or.inl (by decide), by decide⟩

/-! ## Classifier claims -/

theorem length_eq_four {α : Type} {l : List α} :
    l.length = 4 ↔ ∃ a b c d, l = [a, b, c, d] := by
  constructor
  · intro h
    cases l with
    | nil => simp at h
    | cons a t =>
      obtain ⟨b, c, d, rfl⟩ := List.length_eq_three.mp
        (by simpa using h)
      exact ⟨a, b, c, d, rfl⟩
  · rintro ⟨a, b, c, d, rfl⟩
    rfl

/-- C7: the regular script-hash pattern holds exactly for the 3-instruction
sequences HASH160, DATA_20, EQUAL in that order; the stake pattern holds
exactly for the 4-instruction sequences starting with a stake-tag opcode in
the contiguous range OP_SSTX .. OP_SSTXCHANGE followed by the same three;
and the any-kind predicate is their disjunction. -/
theorem scriptHash_patterns (pops : List parsedOpcode) :
    (isScriptHash pops = true ↔ ∃ a b c : parsedOpcode, pops = [a, b, c] ∧
      a.opvalue = OP_HASH160 ∧ b.opvalue = OP_DATA_20 ∧ c.opvalue = OP_EQUAL) ∧
    (isStakeScriptHash pops = true ↔ ∃ a b c d : parsedOpcode, pops = [a, b, c, d] ∧
      OP_SSTX ≤ a.opvalue ∧ a.opvalue ≤ OP_SSTXCHANGE ∧ b.opvalue = OP_HASH160 ∧
      c.opvalue = OP_DATA_20 ∧ d.opvalue = OP_EQUAL) ∧
    isAnyKindOfScriptHash pops = (isScriptHash pops || isStakeScriptHash pops) := by
  refine ⟨⟨?_, ?_⟩, ⟨?_, ?_⟩, rfl⟩
  · intro h
    unfold isScriptHash at h
    simp only [Bool.and_eq_true, decide_eq_true_eq] at h
    obtain ⟨⟨⟨hlen, h0⟩, h1⟩, h2⟩ := h
    obtain ⟨a, b, c, rfl⟩ := List.length_eq_three.mp hlen
    exact ⟨a, b, c, rfl, h0, h1, h2⟩
  · rintro ⟨a, b, c, rfl, h0, h1, h2⟩
    unfold isScriptHash
    simp [h0, h1, h2, List.getD]
  · intro h
    unfold isStakeScriptHash isStakeOpcode at h
    simp only [Bool.and_eq_true, decide_eq_true_eq] at h
    obtain ⟨⟨⟨⟨hlen, h0⟩, h1⟩, h2⟩, h3⟩ := h
    obtain ⟨a, b, c, d, rfl⟩ := length_eq_four.mp hlen
    exact ⟨a, b, c, d, rfl, h0.1, h0.2, h1, h2, h3⟩
  · rintro ⟨a, b, c, d, rfl, h0, h0', h1, h2, h3⟩
    unfold isStakeScriptHash isStakeOpcode
    simp [h0, h0', h1, h2, h3, List.getD]

/-- C5: an output is unspendable exactly when its amount is zero, or its
script fails to parse, or the decoded sequence is non-empty and begins
with the return marker; in particular a nonzero amount paying to a
well-formed script-hash pattern is spendable. -/
theorem isUnspendable_spec (amount : Int) (pk : List Nat) :
    (IsUnspendable amount pk = true ↔
      (amount = 0 ∨ (parseScript pk).2 ≠ none ∨
        ((parseScript pk).1 ≠ [] ∧
          ((parseScript pk).1.getD 0 defaultPop).opvalue = OP_RETURN))) ∧
    (amount ≠ 0 → (parseScript pk).2 = none →
      isScriptHash (parseScript pk).1 = true → IsUnspendable amount pk = false) := by
  constructor
  · unfold IsUnspendable
    by_cases ha : amount = 0
    · simp [ha]
    · rw [if_neg ha]
      cases hp : parseScript pk with
      | mk pops e =>
        cases e with
        | none =>
          dsimp only
          simp [ha, Bool.and_eq_true, decide_eq_true_eq, List.length_pos]
        | some err =>
          simp [ha]
  · intro ha hn hsh
    unfold IsUnspendable
    rw [if_neg ha]
    cases hp : parseScript pk with
    | mk pops e =>
      rw [hp] at hn hsh
      cases e with
      | some err => simp at hn
      | none =>
        dsimp only
        dsimp only at hsh
        unfold isScriptHash at hsh
        simp only [Bool.and_eq_true, decide_eq_true_eq] at hsh
        obtain ⟨⟨⟨hlen, h0⟩, -⟩, -⟩ := hsh
        simp only [Bool.and_eq_false_iff, decide_eq_false_iff_not]
        right
        rw [h0]
        unfold OP_HASH160 OP_RETURN
        omega

/-- C6: the push-only and pay-to-script-hash predicates are total over all
byte buffers: they return false whenever the buffer fails to parse, and on
a successfully parsed buffer the push-only predicate holds exactly when
every decoded instruction's opcode value is at most OP_16. -/
theorem pushOnly_p2sh_total (b : List Nat) :
    ((parseScript b).2 ≠ none →
      IsPushOnlyScript b = false ∧ IsPayToScriptHash b = false) ∧
    ((parseScript b).2 = none →
      (IsPushOnlyScript b = true ↔
        ∀ pop ∈ (parseScript b).1, pop.opvalue ≤ OP_16)) := by
  constructor
  · intro h
    unfold IsPushOnlyScript IsPayToScriptHash
    cases hp : parseScript b with
    | mk pops e =>
      rw [hp] at h
      cases e with
      | none => simp at h
      | some err => exact ⟨rfl, rfl⟩
  · intro h
    unfold IsPushOnlyScript
    cases hp : parseScript b with
    | mk pops e =>
      rw [hp] at h
      cases e with
      | some err => simp at h
      | none =>
        dsimp only
        unfold isPushOnly
        simp [List.all_eq_true]

/-- C4: the pay-to-script-hash-aware precise count follows the source's
asymmetric branching exactly: the public key script is counted from its
partial parse even on error; when P2SH accounting applies, a signature
script that fails to parse, is not push-only, or is empty yields 0, an
empty final push yields 0, and otherwise the redeem script (the final
push's data) is counted precisely from its partial parse even on error. -/
theorem getPreciseSigOpCount_spec (scriptSig scriptPubKey : List Nat) (bip16 : Bool) :
    (¬(bip16 = true ∧ isScriptHash (parseScript scriptPubKey).1 = true) →
      GetPreciseSigOpCount scriptSig scriptPubKey bip16 =
        getSigOpCount (parseScript scriptPubKey).1 true) ∧
    (bip16 = true → isScriptHash (parseScript scriptPubKey).1 = true →
      ((parseScript scriptSig).2 ≠ none →
        GetPreciseSigOpCount scriptSig scriptPubKey bip16 = 0) ∧
      ((parseScript scriptSig).2 = none →
        ((isPushOnly (parseScript scriptSig).1 = false ∨ (parseScript scriptSig).1 = [] →
          GetPreciseSigOpCount scriptSig scriptPubKey bip16 = 0) ∧
        (isPushOnly (parseScript scriptSig).1 = true → (parseScript scriptSig).1 ≠ [] →
          (((parseScript scriptSig).1.getLastD defaultPop).data = [] →
            GetPreciseSigOpCount scriptSig scriptPubKey bip16 = 0) ∧
          (((parseScript scriptSig).1.getLastD defaultPop).data ≠ [] →
            GetPreciseSigOpCount scriptSig scriptPubKey bip16 =
              getSigOpCount
                (parseScript ((parseScript scriptSig).1.getLastD defaultPop).data).1
                true))))) := by
  unfold GetPreciseSigOpCount
  dsimp only
  cases hcond : bip16 && isScriptHash (parseScript scriptPubKey).1 with
  | false =>
    constructor
    · intro _
      simp [hcond]
    · intro hb hsh
      rw [hb, hsh] at hcond
      simp at hcond
  | true =>
    have hcond' : bip16 = true ∧ isScriptHash (parseScript scriptPubKey).1 = true := by
      simpa [Bool.and_eq_true] using hcond
    constructor
    · intro hno
      exact absurd hcond' hno
    · intro _ _
      simp only [Bool.not_true, Bool.false_eq_true, if_false]
      cases hsig : parseScript scriptSig with
      | mk sigPops e =>
        cases e with
        | some err =>
          refine ⟨fun _ => rfl, fun hnone => ?_⟩
          simp at hnone
        | none =>
          refine ⟨fun hne => by simp at hne, fun _ => ?_⟩
          dsimp only
          constructor
          · rintro (hfalse | hnil)
            · rw [if_pos]
              simp [hfalse]
            · rw [if_pos]
              simp [hnil]
          · intro hpo hnn
            rw [if_neg (by simp [hpo, hnn, List.length_eq_zero])]
            constructor
            · intro hdata
              rw [if_pos (by rw [List.length_eq_zero]; exact hdata)]
            · intro hdata
              rw [if_neg (by rw [List.length_eq_zero]; exact hdata)]

/-- Witness for C4: a pay-to-script-hash output spent with an empty
signature script gives a precise count of 0 under P2SH accounting. -/
theorem getPreciseSigOpCount_spec_witness :
    GetPreciseSigOpCount []
      ([169, 20] ++ List.replicate 20 0 ++ [135]) true = 0 := by
  have h := ((getPreciseSigOpCount_spec []
    ([169, 20] ++ List.replicate 20 0 ++ [135]) true).2 rfl (by decide)).2 (by decide)
  exact h.1 (Or.inr (by decide))

/-- Witness for C5: a nonzero amount paying to the standard script-hash
pattern is spendable. -/
theorem isUnspendable_spec_witness :
    IsUnspendable 1 ([169, 20] ++ List.replicate 20 0 ++ [135]) = false := by
  have h := (isUnspendable_spec 1 ([169, 20] ++ List.replicate 20 0 ++ [135])).2
  exact h (by decide) (by decide) (by decide)

/-- Witness for C6: a truncated prefixed-length push fails to parse, and
both predicates return false on it. -/
theorem pushOnly_p2sh_total_witness :
    IsPushOnlyScript [76] = false ∧ IsPayToScriptHash [76] = false := by
  exact (pushOnly_p2sh_total [76]).1 (by decide)

/-- C8: data-opcode removal filters the decoded sequence in place-order,
producing the sublist of exactly those instructions that do not both pass
the canonical-push check and contain the target bytes as a contiguous
sub-sequence; an instruction failing the canonical-push check is always
retained. -/
theorem removeOpcodeByData_spec (pkscript : List parsedOpcode) (data : List Nat) :
    removeOpcodeByData pkscript data =
      pkscript.filter
        (fun pop => decide (¬(canonicalPush pop = true ∧ List.IsInfix data pop.data))) ∧
    List.Sublist (removeOpcodeByData pkscript data) pkscript ∧
    (∀ pop ∈ pkscript, (pop ∈ removeOpcodeByData pkscript data ↔
      ¬(canonicalPush pop = true ∧ List.IsInfix data pop.data))) ∧
    (∀ pop ∈ pkscript, canonicalPush pop = false →
      pop ∈ removeOpcodeByData pkscript data) := by
  have hfe : ∀ pop : parsedOpcode,
      (!canonicalPush pop || !decide (List.IsInfix data pop.data)) =
        decide (¬(canonicalPush pop = true ∧ List.IsInfix data pop.data)) := by
    intro pop
    generalize canonicalPush pop = cp
    cases cp <;> by_cases h2 : List.IsInfix data pop.data <;> simp [h2]
  have hmemiff : ∀ pop ∈ pkscript, (pop ∈ removeOpcodeByData pkscript data ↔
      ¬(canonicalPush pop = true ∧ List.IsInfix data pop.data)) := by
    intro pop hmem
    unfold removeOpcodeByData
    rw [List.mem_filter, hfe pop]
    simp only [hmem, true_and, decide_eq_true_eq]
  refine ⟨?_, ?_, hmemiff, ?_⟩
  · unfold removeOpcodeByData
    exact List.filter_congr (fun pop _ => hfe pop)
  · unfold removeOpcodeByData
    exact List.filter_sublist pkscript
  · intro pop hmem hnc
    exact (hmemiff pop hmem).mpr (fun hcontra => by rw [hnc] at hcontra; simp at hcontra)

/-- Witness for C8: a non-canonical push (a 2-byte-prefixed push of a
single byte) is retained even though its data contains the target. -/
theorem removeOpcodeByData_spec_witness :
    (⟨77, [5]⟩ : parsedOpcode) ∈ removeOpcodeByData [⟨77, [5]⟩] [5] := by
  have h := (removeOpcodeByData_spec [⟨77, [5]⟩] [5]).2.2.2
  exact h ⟨77, [5]⟩ (by simp) (by decide)

end TxScript
